import Mathlib

/-!
Verification of scripts/file_processor.py, a batch renamer: it scans
configured folders for Markdown files lacking the standardized name
pattern YYYY-MM-DD-ID-title.md and renames them to a date-prefixed,
sequential-ID, slugified form.

Filenames and printed lines are modelled as lists of characters.
The directory state of one target folder is a FolderState (whether the
path exists, plus the listing); process_folder is a fold of the loop
body over a snapshot of the listing, exactly as the Python loop iterates
the list returned by os.listdir.
-/

abbrev Name := List Char

/-- Models the regex digit class (ASCII digits, codes 48 to 57). -/
def isDigitChar (c : Char) : Bool := 48 ≤ c.toNat && c.toNat ≤ 57

/-- The character for a decimal digit value d: code 48 is the digit zero. -/
def digitChar (d : Nat) : Char := Char.ofNat (48 + d)

/-- Models Python int() applied to a digit string, most significant first. -/
def natOfDigits (ds : Name) : Nat := ds.foldl (fun a c => 10 * a + (c.toNat - 48)) 0

/-- Decimal digits of n, most significant first, empty for n = 0.  The
    first argument is fuel making the recursion structural; any fuel at
    least n gives the true digits. -/
def decDigitsAux : Nat → Nat → Name
  | 0, _ => []
  | fuel + 1, n => if n = 0 then [] else decDigitsAux fuel (n / 10) ++ [digitChar (n % 10)]

/-- Decimal rendering of a natural number, as Python formatting produces it. -/
def decRepr (n : Nat) : Name := if n = 0 then [digitChar 0] else decDigitsAux n n

/-- Models the format spec 03d from process_folder: decimal digits of the
    counter, zero-padded on the left to a width of at least 3. -/
def idStr (n : Nat) : Name := List.replicate (3 - (decRepr n).length) '0' ++ decRepr n

/-- Consume exactly k digit characters from the front of the input. -/
def digitsN : Nat → Name → Option Name
  | 0, l => some l
  | _ + 1, [] => none
  | k + 1, c :: l => if isDigitChar c then digitsN k l else none

/-- Consume one expected literal character from the front of the input. -/
def expectChar (c : Char) : Name → Option Name
  | [] => none
  | d :: l => if d = c then some l else none

/-- Consume the date part of the conforming pattern: four digits, a
    hyphen, two digits, a hyphen, two digits. -/
def dateParse (l : Name) : Option Name :=
  (digitsN 4 l).bind (fun r1 =>
    (expectChar '-' r1).bind (fun r2 =>
      (digitsN 2 r2).bind (fun r3 =>
        (expectChar '-' r3).bind (fun r4 => digitsN 2 r4))))

/-- Models the regex tail (any characters, then a literal dot, then md,
    then end) with Python semantics: the any-character class excludes the
    newline, and the end anchor also matches just before a single
    trailing newline. -/
def dotStarMdEnd (r : Name) : Bool :=
  (decide (r.reverse.take 3 = ['d', 'm', '.']) &&
    (r.reverse.drop 3).all (fun c => decide (c ≠ '\n'))) ||
  (decide (r.reverse.take 4 = ['\n', 'd', 'm', '.']) &&
    (r.reverse.drop 4).all (fun c => decide (c ≠ '\n')))

/-- Models re.match of the compiled pattern used by both get_next_id and
    process_folder (date, hyphen, a group of one or more digits, hyphen,
    anything, dot md, end), returning int of the first group when the
    name matches.  The greedy digit group is the maximal leading digit
    run: the regex requires a hyphen, never a digit, right after the
    group, so the backtracking engine keeps the maximal run. -/
def matchValidId (name : Name) : Option Nat :=
  (dateParse name).bind (fun r5 =>
    (expectChar '-' r5).bind (fun r6 =>
      if r6.takeWhile isDigitChar = [] then none
      else
        (expectChar '-' (r6.dropWhile isDigitChar)).bind (fun r8 =>
          if dotStarMdEnd r8 then some (natOfDigits (r6.takeWhile isDigitChar)) else none)))

/-- Models str.endswith with the three-character suffix dot m d. -/
def endsWithMd (name : Name) : Bool :=
  decide (name.reverse.take 3 = ['d', 'm', '.'])

/-- A string as produced by strftime with the year-month-day format: the
    date parser consumes it completely. -/
def isDateFormat (d : Name) : Bool := dateParse d == some []

/-- Models str.lower on one character (ASCII fragment: codes 65 to 90
    move up by 32; the script's filenames stay within ASCII). -/
def pyLowerChar (c : Char) : Char :=
  if 65 ≤ c.toNat ∧ c.toNat ≤ 90 then Char.ofNat (c.toNat + 32) else c

/-- Models str.lower on a whole string. -/
def pyLower (s : Name) : Name := s.map pyLowerChar

/-- Models str.replace of every space by a hyphen. -/
def spaceToHyphen (s : Name) : Name := s.map (fun c => if c = ' ' then '-' else c)

/-- The character class kept by the cleanup substitution in
    process_folder: lowercase letters (codes 97 to 122), digits (codes 48
    to 57) and the hyphen (code 45). -/
def isSlugChar (c : Char) : Bool :=
  (97 ≤ c.toNat && c.toNat ≤ 122) || (48 ≤ c.toNat && c.toNat ≤ 57) || c.toNat == 45

/-- The lowercase, space-to-hyphen, strip-non-alphanumeric transform of
    process_folder (everything after the extension removal). -/
def slugTransform (s : Name) : Name := (spaceToHyphen (pyLower s)).filter isSlugChar

/-- Models str.replace removing every occurrence of the three-character
    substring dot m d, leftmost first, non-overlapping. -/
def replaceMd : Name → Name
  | '.' :: 'm' :: 'd' :: rest => replaceMd rest
  | c :: rest => c :: replaceMd rest
  | [] => []

/-- The clean_title computation from process_folder: remove the dot md
    occurrences, lowercase, spaces to hyphens, keep only slug characters. -/
def cleanTitle (filename : Name) : Name := slugTransform (replaceMd filename)

/-- The observable state of one target folder: whether the path exists,
    and the directory listing in enumeration order. -/
structure FolderState where
  present : Bool
  files : List Name

/-- The loop body of get_next_id: keep the larger of the accumulator and
    the embedded ID when the name matches the pattern. -/
def idMaxStep (m : Nat) (f : Name) : Nat :=
  match matchValidId f with
  | some i => if i > m then i else m
  | none => m

/-- Models get_next_id: 1 for a missing folder, otherwise the maximum
    embedded ID over the listing (0 when none match) plus one. -/
def get_next_id (folder : FolderState) : Nat :=
  if folder.present = false then 1
  else folder.files.foldl idMaxStep 0 + 1

/-- One rename on the listing: the destination replaces the source, and
    a pre-existing entry with the destination name is overwritten (the
    host rename semantics). -/
def moveFile (files : List Name) (src dst : Name) : List Name :=
  dst :: (files.erase src).filter (fun f => decide (f ≠ dst))

/-- The evolving state while process_folder works on one folder: current
    listing, running counter, renames performed so far in order, and
    lines printed so far. -/
@[ext] structure RunState where
  files : List Name
  nextId : Nat
  renames : List (Name × Name)
  lines : List Name
deriving DecidableEq

/-- Text of the progress line announcing a folder scan. -/
def scanLine (path : Name) : Name :=
  ['S', 'c', 'a', 'n', 'n', 'i', 'n', 'g', ' '] ++ path ++ ['.', '.', '.']

/-- Text of the progress line announcing one rename. -/
def renameLine (o n : Name) : Name :=
  ['R', 'e', 'n', 'a', 'm', 'i', 'n', 'g', ' '] ++ o ++ [' ', '-', '>', ' '] ++ n

/-- The new filename computed in process_folder: date, hyphen, padded
    counter, hyphen, cleaned title, dot md. -/
def newFilename (today : Name) (nid : Nat) (filename : Name) : Name :=
  today ++ '-' :: idStr nid ++ '-' :: cleanTitle filename ++ ['.', 'm', 'd']

/-- The loop body of process_folder for one directory entry: skip names
    not ending in dot md, skip names already matching the pattern,
    otherwise rename to the computed new name and advance the counter. -/
def processFile (today : Name) (st : RunState) (filename : Name) : RunState :=
  if endsWithMd filename = false then st
  else if (matchValidId filename).isSome then st
  else
    let nf := newFilename today st.nextId filename
    { files := moveFile st.files filename nf
      nextId := st.nextId + 1
      renames := st.renames ++ [(filename, nf)]
      lines := st.lines ++ [renameLine filename nf] }

/-- Models process_folder: print the scanning line, return when the
    folder is missing, otherwise fold the loop body over a snapshot of
    the listing, starting the counter at the scanned next ID.  The date
    string is a parameter: the script reads the current date inside the
    loop, constant within a run. -/
def process_folder (today path : Name) (folder : FolderState) : RunState :=
  if folder.present = false then
    { files := folder.files, nextId := get_next_id folder
      renames := [], lines := [scanLine path] }
  else
    folder.files.foldl (processFile today)
      { files := folder.files, nextId := get_next_id folder
        renames := [], lines := [scanLine path] }

/-- The renames process_folder performs, computed directly from the
    snapshot listing and the starting counter. -/
def plannedRenames (today : Name) : Nat → List Name → List (Name × Name)
  | _, [] => []
  | nid, f :: fs =>
    if endsWithMd f = false then plannedRenames today nid fs
    else if (matchValidId f).isSome then plannedRenames today nid fs
    else (f, newFilename today nid f) :: plannedRenames today (nid + 1) fs

/-- Apply a sequence of renames to a listing, in order. -/
def applyMoves (files : List Name) (prs : List (Name × Name)) : List Name :=
  prs.foldl (fun fl pr => moveFile fl pr.1 pr.2) files

/-- The configured folder list from the source: projects and templates. -/
def TARGET_FOLDERS : List Name :=
  [['p', 'r', 'o', 'j', 'e', 'c', 't', 's'],
   ['t', 'e', 'm', 'p', 'l', 'a', 't', 'e', 's']]

/-- Models the loop of main with Python exception semantics: the body
    (one process_folder call, abstracted as a fallible action) is invoked
    on each folder in order, and an uncaught exception terminates the
    loop.  Returns the folders on which the body was invoked. -/
def mainFoldersRun (run : Name → Except Unit Unit) : List Name → List Name
  | [] => []
  | f :: fs =>
    match run f with
    | Except.ok _ => f :: mainFoldersRun run fs
    | Except.error _ => [f]

/-- Modelled from the spec: the title transform exactly as claim C4 words
    it, stripping only the trailing dot md suffix before the slug steps
    (the source instead removes every occurrence of the substring). -/
def specTitleC4 (f : Name) : Name :=
  slugTransform (if endsWithMd f then f.take (f.length - 3) else f)

/-! Concrete sample data used by the witness theorems, taken from the
    scenarios of the specification. -/

def sampleConforming : Name :=
  ['2', '0', '2', '4', '-', '0', '1', '-', '0', '1', '-', '0', '0', '5', '-',
   'h', 'e', 'l', 'l', 'o', '.', 'm', 'd']

def sampleNotes : Name := ['M', 'y', ' ', 'N', 'o', 't', 'e', 's', '.', 'm', 'd']

def sampleToday : Name := ['2', '0', '2', '6', '-', '1', '0', '-', '1', '2']

def samplePath : Name := ['p', 'r', 'o', 'j', 'e', 'c', 't', 's']

def sampleFolder : FolderState :=
  { present := true, files := [sampleConforming, sampleNotes] }

def emptyFolder : FolderState := { present := true, files := [] }

def sampleMdb : Name := ['a', '.', 'm', 'd', 'b', '.', 'm', 'd']

def sampleFolderMdb : FolderState := { present := true, files := [sampleMdb] }

def sampleBang : Name := ['!', '!', '!', '.', 'm', 'd']

def sampleState : RunState := { files := [], nextId := 1, renames := [], lines := [] }

/-! Helper lemmas about decimal rendering and the padded counter. -/

theorem digitChar_toNat (d : Nat) (hd : d < 10) : (digitChar d).toNat = 48 + d := by
  interval_cases d <;> decide

theorem isDigitChar_digitChar (d : Nat) (hd : d < 10) : isDigitChar (digitChar d) = true := by
  interval_cases d <;> decide

theorem decDigitsAux_all (fuel n : Nat) : (decDigitsAux fuel n).all isDigitChar = true := by
  induction fuel generalizing n with
  | zero => simp [decDigitsAux]
  | succ fuel ih =>
    unfold decDigitsAux
    by_cases h : n = 0
    · simp [h]
    · simp only [if_neg h, List.all_append, Bool.and_eq_true]
      refine ⟨ih (n / 10), ?_⟩
      simp [isDigitChar_digitChar (n % 10) (Nat.mod_lt n (by norm_num : 0 < 10))]

theorem decDigitsAux_foldl (fuel : Nat) :
    ∀ n a, n ≤ fuel →
      (decDigitsAux fuel n).foldl (fun a c => 10 * a + (c.toNat - 48)) a
        = a * 10 ^ (decDigitsAux fuel n).length + n := by
  induction fuel with
  | zero =>
    intro n a hn
    have : n = 0 := Nat.le_zero.mp hn
    simp [this, decDigitsAux]
  | succ fuel ih =>
    intro n a hn
    by_cases h : n = 0
    · simp [h, decDigitsAux]
    · have hdiv : n / 10 ≤ fuel := by
        have : n / 10 < n := Nat.div_lt_self (Nat.pos_of_ne_zero h) (by norm_num)
        omega
      have hrec := ih (n / 10) a hdiv
      unfold decDigitsAux
      simp only [if_neg h, List.foldl_append, List.length_append, List.length_cons,
        List.length_nil, List.foldl_cons, List.foldl_nil]
      rw [hrec, digitChar_toNat (n % 10) (Nat.mod_lt n (by norm_num : 0 < 10))]
      have hmod : 10 * (n / 10) + n % 10 = n := Nat.div_add_mod n 10
      have hpow : 10 ^ ((decDigitsAux fuel (n / 10)).length + 1)
          = 10 ^ (decDigitsAux fuel (n / 10)).length * 10 := pow_succ 10 _
      rw [hpow]
      ring_nf
      omega

theorem natOfDigits_decRepr (n : Nat) : natOfDigits (decRepr n) = n := by
  by_cases h : n = 0
  · subst h; decide
  · unfold natOfDigits decRepr
    rw [if_neg h, decDigitsAux_foldl n n 0 (le_refl n)]
    simp

theorem decRepr_all (n : Nat) : (decRepr n).all isDigitChar = true := by
  unfold decRepr
  by_cases h : n = 0
  · simp [h]; decide
  · simp only [if_neg h]
    exact decDigitsAux_all n n

theorem natOfDigits_replicate_zero (k : Nat) (l : Name) :
    natOfDigits (List.replicate k '0' ++ l) = natOfDigits l := by
  unfold natOfDigits
  rw [List.foldl_append]
  have : (List.replicate k '0').foldl (fun a c => 10 * a + (c.toNat - 48)) 0 = 0 := by
    induction k with
    | zero => rfl
    | succ k ih => simpa [List.replicate_succ] using ih
  rw [this]

theorem natOfDigits_idStr (n : Nat) : natOfDigits (idStr n) = n := by
  unfold idStr
  rw [natOfDigits_replicate_zero, natOfDigits_decRepr]

theorem idStr_all (n : Nat) : (idStr n).all isDigitChar = true := by
  unfold idStr
  rw [List.all_append]
  simp only [Bool.and_eq_true]
  constructor
  · rw [List.all_eq_true]
    intro c hc
    have := List.eq_of_mem_replicate hc
    subst this
    decide
  · exact decRepr_all n

theorem idStr_length (n : Nat) : 3 ≤ (idStr n).length := by
  unfold idStr
  rw [List.length_append, List.length_replicate]
  omega

theorem idStr_ne_nil (n : Nat) : idStr n ≠ [] := by
  intro h
  have := idStr_length n
  rw [h] at this
  simp at this

/-! Helper lemmas about the parsing combinators. -/

theorem digitsN_append (k : Nat) :
    ∀ l r s : Name, digitsN k l = some s → digitsN k (l ++ r) = some (s ++ r) := by
  induction k with
  | zero =>
    intro l r s h
    simp [digitsN] at h
    subst h
    rfl
  | succ k ih =>
    intro l r s h
    cases l with
    | nil => simp [digitsN] at h
    | cons c cs =>
      by_cases hc : isDigitChar c = true
      · rw [List.cons_append]
        unfold digitsN at h ⊢
        rw [if_pos hc] at h ⊢
        exact ih cs r s h
      · unfold digitsN at h
        rw [if_neg hc] at h
        exact absurd h (by simp)

theorem expectChar_append (c : Char) (l r s : Name) (h : expectChar c l = some s) :
    expectChar c (l ++ r) = some (s ++ r) := by
  cases l with
  | nil => simp [expectChar] at h
  | cons d cs =>
    simp only [expectChar] at h
    by_cases hd : d = c
    · rw [if_pos hd] at h
      simp only [Option.some.injEq] at h
      subst h
      rw [List.cons_append]
      simp only [expectChar]
      rw [if_pos hd]
    · rw [if_neg hd] at h
      exact absurd h (by simp)

theorem dateParse_append (d rest : Name) (h : dateParse d = some []) :
    dateParse (d ++ rest) = some rest := by
  unfold dateParse at h ⊢
  cases h1 : digitsN 4 d with
  | none => rw [h1] at h; exact absurd h (by simp)
  | some r1 =>
    rw [h1] at h
    rw [digitsN_append 4 d rest r1 h1]
    simp only [Option.some_bind] at h ⊢
    cases h2 : expectChar '-' r1 with
    | none => rw [h2] at h; exact absurd h (by simp)
    | some r2 =>
      rw [h2] at h
      rw [expectChar_append '-' r1 rest r2 h2]
      simp only [Option.some_bind] at h ⊢
      cases h3 : digitsN 2 r2 with
      | none => rw [h3] at h; exact absurd h (by simp)
      | some r3 =>
        rw [h3] at h
        rw [digitsN_append 2 r2 rest r3 h3]
        simp only [Option.some_bind] at h ⊢
        cases h4 : expectChar '-' r3 with
        | none => rw [h4] at h; exact absurd h (by simp)
        | some r4 =>
          rw [h4] at h
          rw [expectChar_append '-' r3 rest r4 h4]
          simp only [Option.some_bind] at h ⊢
          have := digitsN_append 2 r4 rest [] h
          simpa using this

theorem takeWhile_append_all {p : Char → Bool} :
    ∀ a : Name, a.all p = true → ∀ (c : Char), p c = false → ∀ l : Name,
      (a ++ c :: l).takeWhile p = a ∧ (a ++ c :: l).dropWhile p = c :: l := by
  intro a
  induction a with
  | nil =>
    intro _ c hc l
    constructor
    · simp [List.takeWhile, hc]
    · simp [List.dropWhile, hc]
  | cons x xs ih =>
    intro ha c hc l
    rw [List.all_cons, Bool.and_eq_true] at ha
    have := ih ha.2 c hc l
    constructor
    · rw [List.cons_append, List.takeWhile_cons, ha.1]
      simp [this.1]
    · rw [List.cons_append, List.dropWhile_cons, ha.1]
      simp [this.2]

/-! Helper lemmas about the produced filename and the conforming pattern. -/

theorem dotStarMdEnd_append (t : Name) (ht : ∀ c ∈ t, c ≠ '\n') :
    dotStarMdEnd (t ++ ['.', 'm', 'd']) = true := by
  unfold dotStarMdEnd
  have hrev : (t ++ ['.', 'm', 'd']).reverse = 'd' :: 'm' :: '.' :: t.reverse := by simp
  rw [hrev]
  have htake : ('d' :: 'm' :: '.' :: t.reverse).take 3 = ['d', 'm', '.'] := rfl
  have hdrop : ('d' :: 'm' :: '.' :: t.reverse).drop 3 = t.reverse := rfl
  rw [htake, hdrop]
  have h1 : decide ((['d', 'm', '.'] : Name) = ['d', 'm', '.']) = true := by decide
  rw [h1]
  have h2 : (t.reverse).all (fun c => decide (c ≠ '\n')) = true := by
    rw [List.all_eq_true]
    intro c hc
    simp only [decide_eq_true_eq]
    exact ht c (List.mem_reverse.mp hc)
  rw [h2]
  rfl

theorem endsWithMd_append (t : Name) : endsWithMd (t ++ ['.', 'm', 'd']) = true := by
  unfold endsWithMd
  have hrev : (t ++ ['.', 'm', 'd']).reverse = 'd' :: 'm' :: '.' :: t.reverse := by simp
  rw [hrev]
  have htake : ('d' :: 'm' :: '.' :: t.reverse).take 3 = ['d', 'm', '.'] := rfl
  rw [htake]
  decide

theorem isSlugChar_of_mem_cleanTitle (f : Name) (c : Char) (hc : c ∈ cleanTitle f) :
    isSlugChar c = true := by
  simp only [cleanTitle, slugTransform] at hc
  exact List.of_mem_filter hc

theorem newFilename_assoc (today : Name) (nid : Nat) (f : Name) :
    newFilename today nid f
      = today ++ ('-' :: (idStr nid ++ '-' :: (cleanTitle f ++ ['.', 'm', 'd']))) := by
  unfold newFilename
  simp

theorem endsWithMd_newFilename (today : Name) (nid : Nat) (f : Name) :
    endsWithMd (newFilename today nid f) = true := by
  have h : newFilename today nid f
      = (today ++ '-' :: idStr nid ++ '-' :: cleanTitle f) ++ ['.', 'm', 'd'] := by
    unfold newFilename
    simp
  rw [h]
  exact endsWithMd_append _

theorem matchValidId_newFilename (today : Name) (hd : isDateFormat today = true)
    (nid : Nat) (f : Name) : matchValidId (newFilename today nid f) = some nid := by
  have hdp : dateParse today = some [] := by
    unfold isDateFormat at hd
    exact eq_of_beq hd
  rw [newFilename_assoc]
  unfold matchValidId
  rw [dateParse_append today _ hdp]
  simp only [Option.some_bind]
  have he1 : expectChar '-' ('-' :: (idStr nid ++ '-' :: (cleanTitle f ++ ['.', 'm', 'd'])))
      = some (idStr nid ++ '-' :: (cleanTitle f ++ ['.', 'm', 'd'])) := by
    simp [expectChar]
  rw [he1]
  simp only [Option.some_bind]
  have hsplit := takeWhile_append_all (idStr nid) (idStr_all nid) '-' (by decide)
      (cleanTitle f ++ ['.', 'm', 'd'])
  rw [hsplit.1, hsplit.2]
  rw [if_neg (idStr_ne_nil nid)]
  have he2 : expectChar '-' ('-' :: (cleanTitle f ++ ['.', 'm', 'd']))
      = some (cleanTitle f ++ ['.', 'm', 'd']) := by
    simp [expectChar]
  rw [he2]
  simp only [Option.some_bind]
  have hdot : dotStarMdEnd (cleanTitle f ++ ['.', 'm', 'd']) = true := by
    apply dotStarMdEnd_append
    intro c hc heq
    have hs := isSlugChar_of_mem_cleanTitle f c hc
    subst heq
    exact absurd hs (by decide)
  rw [if_pos hdot, natOfDigits_idStr]

/-! Helper lemmas about the slug transform. -/

theorem map_fix {f : Char → Char} : ∀ l : Name, (∀ c ∈ l, f c = c) → l.map f = l := by
  intro l
  induction l with
  | nil => intro _; rfl
  | cons x xs ih =>
    intro h
    rw [List.map_cons, h x (by simp), ih (fun c hc => h c (by simp [hc]))]

theorem slugChar_fixed (c : Char) (h : isSlugChar c = true) :
    pyLowerChar c = c ∧ (if c = ' ' then '-' else c) = c := by
  have hP : (97 ≤ c.toNat ∧ c.toNat ≤ 122) ∨ (48 ≤ c.toNat ∧ c.toNat ≤ 57) ∨ c.toNat = 45 := by
    unfold isSlugChar at h
    simp only [Bool.or_eq_true, Bool.and_eq_true, decide_eq_true_eq, beq_iff_eq] at h
    tauto
  constructor
  · unfold pyLowerChar
    rw [if_neg]
    omega
  · rw [if_neg]
    intro heq
    subst heq
    exact absurd hP (by decide)

theorem slugTransform_fixed (l : Name) (h : ∀ c ∈ l, isSlugChar c = true) :
    slugTransform l = l := by
  unfold slugTransform pyLower spaceToHyphen
  rw [map_fix l (fun c hc => (slugChar_fixed c (h c hc)).1)]
  rw [map_fix l (fun c hc => (slugChar_fixed c (h c hc)).2)]
  rw [List.filter_eq_self.mpr h]

theorem mem_slugTransform_isSlugChar (s : Name) (c : Char) (hc : c ∈ slugTransform s) :
    isSlugChar c = true := by
  unfold slugTransform at hc
  exact List.of_mem_filter hc

/-! The closed form of the process_folder fold. -/

theorem foldl_processFile (today : Name) :
    ∀ (l : List Name) (st : RunState),
      l.foldl (processFile today) st =
        { files := applyMoves st.files (plannedRenames today st.nextId l)
          nextId := st.nextId + (plannedRenames today st.nextId l).length
          renames := st.renames ++ plannedRenames today st.nextId l
          lines := st.lines ++
            (plannedRenames today st.nextId l).map (fun pr => renameLine pr.1 pr.2) } := by
  intro l
  induction l with
  | nil =>
    intro st
    cases st
    simp [plannedRenames, applyMoves]
  | cons f fs ih =>
    intro st
    rw [List.foldl_cons]
    by_cases h1 : endsWithMd f = false
    · have hbody : processFile today st f = st := by
        unfold processFile
        rw [if_pos h1]
      have hplan : plannedRenames today st.nextId (f :: fs) = plannedRenames today st.nextId fs := by
        simp only [plannedRenames]
        rw [if_pos h1]
      rw [hbody, ih st, hplan]
    · have h1' : endsWithMd f = true := by
        revert h1
        cases endsWithMd f <;> simp
      by_cases h2 : (matchValidId f).isSome = true
      · have hbody : processFile today st f = st := by
          unfold processFile
          rw [if_neg (by simp [h1']), if_pos h2]
        have hplan : plannedRenames today st.nextId (f :: fs)
            = plannedRenames today st.nextId fs := by
          simp only [plannedRenames]
          rw [if_neg (by simp [h1']), if_pos h2]
        rw [hbody, ih st, hplan]
      · have hbody : processFile today st f =
            { files := moveFile st.files f (newFilename today st.nextId f)
              nextId := st.nextId + 1
              renames := st.renames ++ [(f, newFilename today st.nextId f)]
              lines := st.lines ++ [renameLine f (newFilename today st.nextId f)] } := by
          unfold processFile
          rw [if_neg (by simp [h1']), if_neg h2]
        have hplan : plannedRenames today st.nextId (f :: fs)
            = (f, newFilename today st.nextId f) :: plannedRenames today (st.nextId + 1) fs := by
          simp only [plannedRenames]
          rw [if_neg (by simp [h1']), if_neg h2]
        rw [hbody, ih _, hplan]
        refine RunState.ext ?_ ?_ ?_ ?_
        · simp [applyMoves]
        · simp
          omega
        · simp
        · simp

theorem process_folder_spec (today path : Name) (folder : FolderState)
    (hp : folder.present = true) :
    process_folder today path folder =
      { files := applyMoves folder.files (plannedRenames today (get_next_id folder) folder.files)
        nextId := get_next_id folder
          + (plannedRenames today (get_next_id folder) folder.files).length
        renames := plannedRenames today (get_next_id folder) folder.files
        lines := scanLine path ::
          (plannedRenames today (get_next_id folder) folder.files).map
            (fun pr => renameLine pr.1 pr.2) } := by
  unfold process_folder
  rw [if_neg (by simp [hp])]
  rw [foldl_processFile]
  simp

theorem process_folder_absent (today path : Name) (folder : FolderState)
    (hp : folder.present = false) :
    process_folder today path folder =
      { files := folder.files, nextId := get_next_id folder
        renames := [], lines := [scanLine path] } := by
  unfold process_folder
  rw [if_pos hp]

/-! Properties of the planned renames. -/

theorem plannedRenames_getStep (today : Name) :
    ∀ (l : List Name) (nid k : Nat) (pr : Name × Name),
      (plannedRenames today nid l).get? k = some pr →
        pr.2 = newFilename today (nid + k) pr.1 := by
  intro l
  induction l with
  | nil =>
    intro nid k pr h
    simp [plannedRenames] at h
  | cons f fs ih =>
    intro nid k pr h
    by_cases h1 : endsWithMd f = false
    · rw [show plannedRenames today nid (f :: fs) = plannedRenames today nid fs from by
        simp only [plannedRenames]; rw [if_pos h1]] at h
      exact ih nid k pr h
    · have h1' : endsWithMd f = true := by
        revert h1
        cases endsWithMd f <;> simp
      by_cases h2 : (matchValidId f).isSome = true
      · rw [show plannedRenames today nid (f :: fs) = plannedRenames today nid fs from by
          simp only [plannedRenames]; rw [if_neg (by simp [h1']), if_pos h2]] at h
        exact ih nid k pr h
      · rw [show plannedRenames today nid (f :: fs)
            = (f, newFilename today nid f) :: plannedRenames today (nid + 1) fs from by
          simp only [plannedRenames]; rw [if_neg (by simp [h1']), if_neg h2]] at h
        cases k with
        | zero =>
          simp only [List.get?_cons_zero, Option.some.injEq] at h
          subst h
          simp
        | succ k =>
          simp only [List.get?_cons_succ] at h
          have := ih (nid + 1) k pr h
          rw [this]
          congr 1
          omega

theorem plannedRenames_memSpec (today : Name) :
    ∀ (l : List Name) (nid : Nat) (pr : Name × Name), pr ∈ plannedRenames today nid l →
      endsWithMd pr.1 = true ∧ matchValidId pr.1 = none ∧ pr.1 ∈ l ∧
        ∃ j, nid ≤ j ∧ pr.2 = newFilename today j pr.1 := by
  intro l
  induction l with
  | nil =>
    intro nid pr h
    simp [plannedRenames] at h
  | cons f fs ih =>
    intro nid pr h
    by_cases h1 : endsWithMd f = false
    · rw [show plannedRenames today nid (f :: fs) = plannedRenames today nid fs from by
        simp only [plannedRenames]; rw [if_pos h1]] at h
      have := ih nid pr h
      exact ⟨this.1, this.2.1, List.mem_cons_of_mem f this.2.2.1, this.2.2.2⟩
    · have h1' : endsWithMd f = true := by
        revert h1
        cases endsWithMd f <;> simp
      by_cases h2 : (matchValidId f).isSome = true
      · rw [show plannedRenames today nid (f :: fs) = plannedRenames today nid fs from by
          simp only [plannedRenames]; rw [if_neg (by simp [h1']), if_pos h2]] at h
        have := ih nid pr h
        exact ⟨this.1, this.2.1, List.mem_cons_of_mem f this.2.2.1, this.2.2.2⟩
      · rw [show plannedRenames today nid (f :: fs)
            = (f, newFilename today nid f) :: plannedRenames today (nid + 1) fs from by
          simp only [plannedRenames]; rw [if_neg (by simp [h1']), if_neg h2]] at h
        rcases List.mem_cons.mp h with heq | hmem
        · subst heq
          have hnone : matchValidId f = none := by
            cases hm : matchValidId f with
            | none => rfl
            | some i => exact absurd (by rw [hm]; rfl) h2
          exact ⟨h1', hnone, List.mem_cons_self f fs, nid, le_refl nid, rfl⟩
        · have := ih (nid + 1) pr hmem
          refine ⟨this.1, this.2.1, List.mem_cons_of_mem f this.2.2.1, ?_⟩
          obtain ⟨j, hj, hpr⟩ := this.2.2.2
          exact ⟨j, by omega, hpr⟩

/-! Properties of applying a sequence of renames to the listing. -/

theorem mem_applyMoves_sub :
    ∀ (prs : List (Name × Name)) (files : List Name) (x : Name),
      x ∈ applyMoves files prs → x ∈ files ∨ ∃ pr ∈ prs, x = pr.2 := by
  intro prs
  induction prs with
  | nil =>
    intro files x h
    exact Or.inl h
  | cons pr rest ih =>
    intro files x h
    rw [show applyMoves files (pr :: rest) = applyMoves (moveFile files pr.1 pr.2) rest from rfl]
      at h
    rcases ih (moveFile files pr.1 pr.2) x h with hin | ⟨q, hq, hx⟩
    · unfold moveFile at hin
      rcases List.mem_cons.mp hin with heq | hmem
      · exact Or.inr ⟨pr, List.mem_cons_self pr rest, heq⟩
      · exact Or.inl (List.mem_of_mem_erase (List.mem_of_mem_filter hmem))
    · exact Or.inr ⟨q, List.mem_cons_of_mem pr hq, hx⟩

theorem mem_applyMoves_of_not_touched :
    ∀ (prs : List (Name × Name)) (files : List Name) (x : Name), x ∈ files →
      (∀ pr ∈ prs, pr.1 ≠ x ∧ pr.2 ≠ x) → x ∈ applyMoves files prs := by
  intro prs
  induction prs with
  | nil =>
    intro files x hx _
    exact hx
  | cons pr rest ih =>
    intro files x hx hne
    rw [show applyMoves files (pr :: rest) = applyMoves (moveFile files pr.1 pr.2) rest from rfl]
    have hhead := hne pr (List.mem_cons_self pr rest)
    apply ih
    · unfold moveFile
      apply List.mem_cons_of_mem
      apply List.mem_filter.mpr
      refine ⟨(List.mem_erase_of_ne ?_).mpr hx, ?_⟩
      · exact fun heq => hhead.1 heq.symm
      · exact decide_eq_true (fun heq => hhead.2 heq.symm)
    · intro q hq
      exact hne q (List.mem_cons_of_mem pr hq)


/-! Helper lemmas about the scan for the maximal embedded ID. -/

theorem le_foldl_idMaxStep : ∀ (l : List Name) (a : Nat), a ≤ l.foldl idMaxStep a := by
  intro l
  induction l with
  | nil => intro a; exact le_refl a
  | cons f fs ih =>
    intro a
    refine le_trans ?_ (ih (idMaxStep a f))
    unfold idMaxStep
    cases matchValidId f with
    | none => exact le_refl a
    | some i =>
      dsimp only
      split <;> omega

theorem foldl_idMaxStep_mem : ∀ (l : List Name) (a : Nat) (f : Name) (i : Nat),
    f ∈ l → matchValidId f = some i → i ≤ l.foldl idMaxStep a := by
  intro l
  induction l with
  | nil =>
    intro a f i h
    simp at h
  | cons g gs ih =>
    intro a f i hmem hi
    rw [List.foldl_cons]
    rcases List.mem_cons.mp hmem with heq | htail
    · subst heq
      refine le_trans ?_ (le_foldl_idMaxStep gs (idMaxStep a f))
      unfold idMaxStep
      rw [hi]
      dsimp only
      split <;> omega
    · exact ih (idMaxStep a g) f i htail hi

theorem foldl_idMaxStep_le : ∀ (l : List Name) (a b : Nat), a ≤ b →
    (∀ f ∈ l, ∀ i, matchValidId f = some i → i ≤ b) → l.foldl idMaxStep a ≤ b := by
  intro l
  induction l with
  | nil =>
    intro a b ha _
    exact ha
  | cons g gs ih =>
    intro a b ha hall
    rw [List.foldl_cons]
    apply ih
    · unfold idMaxStep
      cases hm : matchValidId g with
      | none => exact ha
      | some i =>
        dsimp only
        have := hall g (List.mem_cons_self g gs) i hm
        split <;> omega
    · intro f hf i hi
      exact hall f (List.mem_cons_of_mem g hf) i hi

theorem foldl_idMaxStep_none : ∀ (l : List Name) (a : Nat),
    (∀ f ∈ l, matchValidId f = none) → l.foldl idMaxStep a = a := by
  intro l
  induction l with
  | nil =>
    intro a _
    rfl
  | cons g gs ih =>
    intro a hall
    rw [List.foldl_cons]
    have hg : idMaxStep a g = a := by
      unfold idMaxStep
      rw [hall g (List.mem_cons_self g gs)]
    rw [hg]
    exact ih a (fun f hf => hall f (List.mem_cons_of_mem g hf))

/-- Claim C2: for every folder, the ID scanner returns the smallest
positive integer strictly greater than every ID embedded in a conforming
filename of the folder, and returns 1 when the folder does not exist or
when no filename conforms; names that fail to match the pattern simply
contribute nothing (the scan is a total function, so a malformed name
never causes an error). -/
theorem claimC2_get_next_id (folder : FolderState) :
    0 < get_next_id folder
    ∧ (∀ f ∈ folder.files, folder.present = true →
        ∀ i, matchValidId f = some i → i < get_next_id folder)
    ∧ (∀ m : Nat, 0 < m →
        (∀ f ∈ folder.files, ∀ i, matchValidId f = some i → i < m) →
        get_next_id folder ≤ m)
    ∧ (folder.present = false → get_next_id folder = 1)
    ∧ ((∀ f ∈ folder.files, matchValidId f = none) → get_next_id folder = 1) := by
  by_cases hp : folder.present = false
  · unfold get_next_id
    rw [if_pos hp]
    refine ⟨by omega, ?_, ?_, fun _ => rfl, fun _ => rfl⟩
    · intro f hf hpres
      rw [hpres] at hp
      exact absurd hp (by simp)
    · intro m hm _
      omega
  · unfold get_next_id
    rw [if_neg hp]
    refine ⟨by omega, ?_, ?_, fun h => absurd h hp, ?_⟩
    · intro f hf _ i hi
      have := foldl_idMaxStep_mem folder.files 0 f i hf hi
      omega
    · intro m hm hall
      have : folder.files.foldl idMaxStep 0 ≤ m - 1 := by
        apply foldl_idMaxStep_le folder.files 0 (m - 1) (by omega)
        intro f hf i hi
        have := hall f hf i hi
        omega
      omega
    · intro hall
      rw [foldl_idMaxStep_none folder.files 0 hall]

/-- Witness for claim C2: a folder holding one conforming name with ID 5
and one non-conforming name scans to 6 (positive, above 5, and minimal),
while a missing folder and an empty folder scan to 1. -/
theorem claimC2_witness :
    0 < get_next_id sampleFolder
    ∧ 5 < get_next_id sampleFolder
    ∧ get_next_id sampleFolder ≤ 6
    ∧ get_next_id { present := false, files := [] } = 1
    ∧ get_next_id emptyFolder = 1 := by
  refine ⟨(claimC2_get_next_id sampleFolder).1, ?_, ?_, ?_, ?_⟩
  · exact (claimC2_get_next_id sampleFolder).2.1 sampleConforming (by decide) rfl 5 (by decide)
  · apply (claimC2_get_next_id sampleFolder).2.2.1 6 (by decide)
    intro f hf i hi
    rcases List.mem_cons.mp hf with rfl | hf2
    · rw [show matchValidId sampleConforming = some 5 from by decide] at hi
      simp at hi
      omega
    · rcases List.mem_cons.mp hf2 with rfl | hf3
      · rw [show matchValidId sampleNotes = none from by decide] at hi
        simp at hi
      · simp at hf3
  · exact (claimC2_get_next_id { present := false, files := [] }).2.2.2.1 rfl
  · apply (claimC2_get_next_id emptyFolder).2.2.2.2
    intro f hf
    simp [emptyFolder] at hf

/-- Claim C7: the slug transform (lowercase, space to hyphen, strip
everything but lowercase letters, digits and hyphens) is idempotent. -/
theorem claimC7_slug_idempotent (s : Name) :
    slugTransform (slugTransform s) = slugTransform s :=
  slugTransform_fixed (slugTransform s) (mem_slugTransform_isSlugChar s)

/-! Helper lemma distinguishing the two kinds of progress lines. -/

theorem scanLine_ne_renameLine (p o n : Name) : scanLine p ≠ renameLine o n := by
  intro h
  unfold scanLine renameLine at h
  have := congrArg (fun l => l.head?) h
  simp at this

/-- Claim C8: every run of process_folder prints exactly one scanning
line naming the folder path, followed by exactly one renaming line per
rename performed, each renaming line reproducing the old and the new
filename of that rename, in order. -/
theorem claimC8_output_lines (today path : Name) (folder : FolderState) :
    (process_folder today path folder).lines
      = scanLine path ::
          (process_folder today path folder).renames.map (fun pr => renameLine pr.1 pr.2)
    ∧ (process_folder today path folder).lines.count (scanLine path) = 1 := by
  have key : (process_folder today path folder).lines
      = scanLine path ::
          (process_folder today path folder).renames.map (fun pr => renameLine pr.1 pr.2) := by
    by_cases hp : folder.present = false
    · rw [process_folder_absent today path folder hp]
      simp
    · have hp' : folder.present = true := by
        revert hp
        cases folder.present <;> simp
      rw [process_folder_spec today path folder hp']
  refine ⟨key, ?_⟩
  rw [key, List.count_cons_self]
  have : ((process_folder today path folder).renames.map
      (fun pr => renameLine pr.1 pr.2)).count (scanLine path) = 0 := by
    apply List.count_eq_zero.mpr
    intro hmem
    rcases List.mem_map.mp hmem with ⟨pr, _, heq⟩
    exact scanLine_ne_renameLine path pr.1 pr.2 heq.symm
  rw [this]

/-- Claim C10: a dot md file whose name yields no slug character after
the extension removal, lowercasing and space replacement still normalizes
successfully: the cleaned title is empty, the produced name is the date,
the padded counter and an empty title before the dot md suffix, that name
matches the conforming pattern (so it embeds the counter), and a
subsequent processing pass leaves the renamed file untouched. -/
theorem claimC10_empty_title (today : Name) (nid : Nat) (f : Name)
    (hd : isDateFormat today = true)
    (h : (spaceToHyphen (pyLower (replaceMd f))).all (fun c => !(isSlugChar c)) = true) :
    cleanTitle f = []
    ∧ newFilename today nid f = today ++ '-' :: idStr nid ++ ['-', '.', 'm', 'd']
    ∧ matchValidId (newFilename today nid f) = some nid
    ∧ ∀ st : RunState, processFile today st (newFilename today nid f) = st := by
  have h0 : cleanTitle f = [] := by
    unfold cleanTitle slugTransform
    apply List.filter_eq_nil_iff.mpr
    intro a ha
    have := List.all_eq_true.mp h a ha
    simp only [Bool.not_eq_true'] at this
    simp [this]
  refine ⟨h0, ?_, matchValidId_newFilename today hd nid f, ?_⟩
  · unfold newFilename
    rw [h0]
    simp
  · intro st
    unfold processFile
    rw [if_neg (by simp [endsWithMd_newFilename today nid f])]
    rw [if_pos (by rw [matchValidId_newFilename today hd nid f]; rfl)]

/-- Witness for claim C10: the file of three exclamation marks with the
dot md extension gets the empty title, its new name under counter 3 on a
sample date matches the pattern with ID 3, and processing it again is a
no-op. -/
theorem claimC10_witness :
    isDateFormat sampleToday = true
    ∧ (spaceToHyphen (pyLower (replaceMd sampleBang))).all (fun c => !(isSlugChar c)) = true
    ∧ cleanTitle sampleBang = []
    ∧ matchValidId (newFilename sampleToday 3 sampleBang) = some 3
    ∧ processFile sampleToday sampleState (newFilename sampleToday 3 sampleBang)
        = sampleState := by
  refine ⟨by decide, by decide, ?_, ?_, ?_⟩
  · exact (claimC10_empty_title sampleToday 3 sampleBang (by decide) (by decide)).1
  · exact (claimC10_empty_title sampleToday 3 sampleBang (by decide) (by decide)).2.2.1
  · exact (claimC10_empty_title sampleToday 3 sampleBang (by decide) (by decide)).2.2.2 sampleState

/-! Helper lemma locating a member of a list prefix at an index. -/

theorem mem_take_getStep {α : Type} :
    ∀ (l : List α) (k : Nat) (a : α), a ∈ l.take k → ∃ j, j < k ∧ l.get? j = some a := by
  intro l
  induction l with
  | nil =>
    intro k a h
    simp at h
  | cons x xs ih =>
    intro k a h
    cases k with
    | zero => simp at h
    | succ k =>
      rw [List.take_succ_cons] at h
      rcases List.mem_cons.mp h with heq | hmem
      · exact ⟨0, by omega, by rw [heq]; rfl⟩
      · obtain ⟨j, hj, hget⟩ := ih k a hmem
        exact ⟨j + 1, by omega, by rw [List.get?_cons_succ]; exact hget⟩

/-- Claim C1: within one run on an existing folder, the new name of the
k-th renamed file embeds exactly the ID next plus k, where next is the
scanner's pre-run value: the assigned IDs are therefore unique, strictly
increasing and contiguous in enumeration order, starting from the
scanner's next-ID value; moreover every ID embedded in a pre-existing
conforming filename of the folder is strictly below that starting value,
hence below every assigned ID. -/
theorem claimC1_run_ids (today path : Name) (folder : FolderState)
    (hd : isDateFormat today = true) (hp : folder.present = true) :
    (∀ k (h : k < (process_folder today path folder).renames.length),
        matchValidId (((process_folder today path folder).renames.get ⟨k, h⟩).2)
          = some (get_next_id folder + k))
    ∧ (∀ f ∈ folder.files, ∀ i, matchValidId f = some i → i < get_next_id folder) := by
  constructor
  · intro k h
    have hren : (process_folder today path folder).renames
        = plannedRenames today (get_next_id folder) folder.files := by
      rw [process_folder_spec today path folder hp]
    have hget : (plannedRenames today (get_next_id folder) folder.files).get? k
        = some ((process_folder today path folder).renames.get ⟨k, h⟩) := by
      rw [← hren]
      exact List.get?_eq_get h
    have hstep := plannedRenames_getStep today folder.files (get_next_id folder) k _ hget
    rw [hstep]
    exact matchValidId_newFilename today hd _ _
  · intro f hf i hi
    unfold get_next_id
    rw [if_neg (by simp [hp])]
    have := foldl_idMaxStep_mem folder.files 0 f i hf hi
    omega

/-- Witness for claim C1: in a folder holding a conforming name with ID 5
and the non-conforming name My Notes dot md, the scanner starts at 6, the
first (and only) rename embeds ID 6, and the pre-existing ID 5 lies below
the starting value. -/
theorem claimC1_witness :
    isDateFormat sampleToday = true
    ∧ sampleFolder.present = true
    ∧ matchValidId (((process_folder sampleToday samplePath sampleFolder).renames.get
        ⟨0, by decide⟩).2) = some (get_next_id sampleFolder + 0)
    ∧ 5 < get_next_id sampleFolder := by
  refine ⟨by decide, rfl, ?_, ?_⟩
  · exact (claimC1_run_ids sampleToday samplePath sampleFolder (by decide) rfl).1 0 (by decide)
  · exact (claimC1_run_ids sampleToday samplePath sampleFolder (by decide) rfl).2
      sampleConforming (by decide) 5 (by decide)

/-- Claim C3: every rename of a run takes a non-conforming dot md entry
to the name made of the date, the running counter zero-padded to at least
three digits (all digit characters, reading back as exactly the counter)
and the cleaned title, and that new name matches the conforming pattern
exactly, embedding the counter value. -/
theorem claimC3_new_names (today path : Name) (folder : FolderState)
    (hd : isDateFormat today = true) (hp : folder.present = true) :
    ∀ k (h : k < (process_folder today path folder).renames.length),
      endsWithMd (((process_folder today path folder).renames.get ⟨k, h⟩).1) = true
      ∧ matchValidId (((process_folder today path folder).renames.get ⟨k, h⟩).1) = none
      ∧ ((process_folder today path folder).renames.get ⟨k, h⟩).2
          = today ++ '-' :: idStr (get_next_id folder + k)
              ++ '-' :: cleanTitle (((process_folder today path folder).renames.get ⟨k, h⟩).1)
              ++ ['.', 'm', 'd']
      ∧ 3 ≤ (idStr (get_next_id folder + k)).length
      ∧ (idStr (get_next_id folder + k)).all isDigitChar = true
      ∧ natOfDigits (idStr (get_next_id folder + k)) = get_next_id folder + k
      ∧ matchValidId (((process_folder today path folder).renames.get ⟨k, h⟩).2)
          = some (get_next_id folder + k) := by
  intro k h
  have hren : (process_folder today path folder).renames
      = plannedRenames today (get_next_id folder) folder.files := by
    rw [process_folder_spec today path folder hp]
  have hget : (plannedRenames today (get_next_id folder) folder.files).get? k
      = some ((process_folder today path folder).renames.get ⟨k, h⟩) := by
    rw [← hren]
    exact List.get?_eq_get h
  have hstep := plannedRenames_getStep today folder.files (get_next_id folder) k _ hget
  have hmem := List.get?_mem hget
  have hspec := plannedRenames_memSpec today folder.files (get_next_id folder) _ hmem
  refine ⟨hspec.1, hspec.2.1, ?_, idStr_length _, idStr_all _, natOfDigits_idStr _, ?_⟩
  · rw [hstep]
    rfl
  · rw [hstep]
    exact matchValidId_newFilename today hd _ _

/-- Witness for claim C3: the single rename in the sample folder embeds
the counter 6 in a conforming new name whose padded ID segment has at
least three digits. -/
theorem claimC3_witness :
    isDateFormat sampleToday = true
    ∧ sampleFolder.present = true
    ∧ matchValidId (((process_folder sampleToday samplePath sampleFolder).renames.get
        ⟨0, by decide⟩).2) = some (get_next_id sampleFolder + 0)
    ∧ 3 ≤ (idStr (get_next_id sampleFolder + 0)).length := by
  refine ⟨by decide, rfl, ?_, ?_⟩
  · exact (claimC3_new_names sampleToday samplePath sampleFolder (by decide) rfl 0
      (by decide)).2.2.2.2.2.2
  · exact (claimC3_new_names sampleToday samplePath sampleFolder (by decide) rfl 0
      (by decide)).2.2.2.1

/-- Counterexample to claim C4: the source removes every occurrence of
the substring dot md, not only the trailing suffix.  On the filename a
dot mdb dot md the code computes the title ab, while the transform the
claim describes (strip only the trailing suffix, lowercase, spaces to
hyphens, keep slug characters) yields amdb. -/
theorem claimC4_counterexample :
    cleanTitle sampleMdb = ['a', 'b']
    ∧ specTitleC4 sampleMdb = ['a', 'm', 'd', 'b']
    ∧ cleanTitle sampleMdb ≠ specTitleC4 sampleMdb := by
  refine ⟨by decide, by decide, by decide⟩

/-- Claim C4 amended: the title segment of every computed new name equals
the result of removing every occurrence of the substring dot md from the
original filename (leftmost first, non-overlapping, before any case
change), then lowercasing, replacing every space by a hyphen, and keeping
only lowercase ASCII letters, digits and hyphens. -/
theorem claimC4_amended_title (today path : Name) (folder : FolderState)
    (hp : folder.present = true) :
    ∀ k (h : k < (process_folder today path folder).renames.length),
      ((process_folder today path folder).renames.get ⟨k, h⟩).2
        = today ++ '-' :: idStr (get_next_id folder + k)
            ++ '-' :: slugTransform (replaceMd
                (((process_folder today path folder).renames.get ⟨k, h⟩).1))
            ++ ['.', 'm', 'd'] := by
  intro k h
  have hren : (process_folder today path folder).renames
      = plannedRenames today (get_next_id folder) folder.files := by
    rw [process_folder_spec today path folder hp]
  have hget : (plannedRenames today (get_next_id folder) folder.files).get? k
      = some ((process_folder today path folder).renames.get ⟨k, h⟩) := by
    rw [← hren]
    exact List.get?_eq_get h
  have hstep := plannedRenames_getStep today folder.files (get_next_id folder) k _ hget
  rw [hstep]
  rfl

/-- Witness for claim C4 amended: the folder holding only the filename a
dot mdb dot md renames it with title ab, the removal applying to both
occurrences of the substring. -/
theorem claimC4_witness :
    sampleFolderMdb.present = true
    ∧ ((process_folder sampleToday samplePath sampleFolderMdb).renames.get ⟨0, by decide⟩).2
        = sampleToday ++ '-' :: idStr (get_next_id sampleFolderMdb + 0)
            ++ '-' :: slugTransform (replaceMd
                (((process_folder sampleToday samplePath sampleFolderMdb).renames.get
                  ⟨0, by decide⟩).1))
            ++ ['.', 'm', 'd'] :=
  ⟨rfl, claimC4_amended_title sampleToday samplePath sampleFolderMdb rfl 0 (by decide)⟩

/-- Claim C5: an entry that already matches the conforming pattern, and an
entry whose name does not end in dot md, is left completely unchanged by
the run: it is never the source of any rename, and it is still present in
the folder afterwards (no rename overwrites it either). -/
theorem claimC5_frame (today path : Name) (folder : FolderState)
    (hd : isDateFormat today = true) :
    ∀ name ∈ folder.files,
      (endsWithMd name = false ∨ (matchValidId name).isSome = true) →
      (∀ pr ∈ (process_folder today path folder).renames, pr.1 ≠ name)
      ∧ name ∈ (process_folder today path folder).files := by
  intro name hnm hskip
  by_cases hp : folder.present = false
  · rw [process_folder_absent today path folder hp]
    refine ⟨?_, hnm⟩
    intro pr hpr
    simp at hpr
  · have hp' : folder.present = true := by
      revert hp
      cases folder.present <;> simp
    rw [process_folder_spec today path folder hp']
    have huntouched : ∀ pr ∈ plannedRenames today (get_next_id folder) folder.files,
        pr.1 ≠ name ∧ pr.2 ≠ name := by
      intro pr hpr
      obtain ⟨hend, hnone, hmem, j, hj, hpr2⟩ :=
        plannedRenames_memSpec today folder.files (get_next_id folder) pr hpr
      constructor
      · intro heq
        rcases hskip with hs | hs
        · rw [heq, hs] at hend
          exact absurd hend (by simp)
        · rw [← heq, hnone] at hs
          exact absurd hs (by simp)
      · intro heq
        rcases hskip with hs | hs
        · have hEnd : endsWithMd pr.2 = true := by
            rw [hpr2]
            exact endsWithMd_newFilename today j pr.1
          rw [heq, hs] at hEnd
          exact absurd hEnd (by simp)
        · rcases Option.isSome_iff_exists.mp hs with ⟨i, hi⟩
          have hid : matchValidId pr.2 = some j := by
            rw [hpr2]
            exact matchValidId_newFilename today hd j pr.1
          rw [heq, hi] at hid
          have hij : i = j := by
            simpa using hid
          have hlt : i < get_next_id folder := by
            unfold get_next_id
            rw [if_neg (by simp [hp'])]
            have := foldl_idMaxStep_mem folder.files 0 name i hnm hi
            omega
          omega
    constructor
    · intro pr hpr heq
      exact (huntouched pr hpr).1 heq
    · exact mem_applyMoves_of_not_touched _ folder.files name hnm huntouched

/-- Witness for claim C5: the conforming name of the sample folder is
still present in the listing after the run. -/
theorem claimC5_witness :
    isDateFormat sampleToday = true
    ∧ sampleConforming ∈ sampleFolder.files
    ∧ (matchValidId sampleConforming).isSome = true
    ∧ sampleConforming ∈ (process_folder sampleToday samplePath sampleFolder).files := by
  refine ⟨by decide, by decide, by decide, ?_⟩
  exact (claimC5_frame sampleToday samplePath sampleFolder (by decide) sampleConforming
      (by decide) (Or.inr (by decide))).2

/-- Claim C9: at each step of a run on an existing folder, the computed
destination name is conforming, embeds the scanner value plus the step
index (strictly above every pre-existing conforming ID and distinct from
every other assigned ID), and differs from every name present in the
folder just before the step, so no rename silently overwrites another
file; equality of conforming name strings forces equality of the embedded
IDs, which is what separates all these names. -/
theorem claimC9_no_overwrite (today path : Name) (folder : FolderState)
    (hd : isDateFormat today = true) (hp : folder.present = true) :
    ∀ k (h : k < (process_folder today path folder).renames.length),
      matchValidId (((process_folder today path folder).renames.get ⟨k, h⟩).2)
        = some (get_next_id folder + k)
      ∧ ∀ name ∈ applyMoves folder.files
            ((process_folder today path folder).renames.take k),
          name ≠ ((process_folder today path folder).renames.get ⟨k, h⟩).2 := by
  intro k h
  have hren : (process_folder today path folder).renames
      = plannedRenames today (get_next_id folder) folder.files := by
    rw [process_folder_spec today path folder hp]
  have hget : (plannedRenames today (get_next_id folder) folder.files).get? k
      = some ((process_folder today path folder).renames.get ⟨k, h⟩) := by
    rw [← hren]
    exact List.get?_eq_get h
  have hstep := plannedRenames_getStep today folder.files (get_next_id folder) k _ hget
  have hid : matchValidId (((process_folder today path folder).renames.get ⟨k, h⟩).2)
      = some (get_next_id folder + k) := by
    rw [hstep]
    exact matchValidId_newFilename today hd _ _
  refine ⟨hid, ?_⟩
  intro name hnmem heq
  rw [hren] at hnmem
  rcases mem_applyMoves_sub _ folder.files name hnmem with hin | ⟨q, hq, hnq⟩
  · cases hm : matchValidId name with
    | none =>
      rw [← heq] at hid
      rw [hm] at hid
      exact absurd hid (by simp)
    | some i =>
      have hlt : i < get_next_id folder := by
        unfold get_next_id
        rw [if_neg (by simp [hp])]
        have := foldl_idMaxStep_mem folder.files 0 name i hin hm
        omega
      rw [← heq] at hid
      rw [hm] at hid
      have : i = get_next_id folder + k := by
        simpa using hid
      omega
  · obtain ⟨j, hjk, hgetj⟩ :=
      mem_take_getStep (plannedRenames today (get_next_id folder) folder.files) k q hq
    have hstepj := plannedRenames_getStep today folder.files (get_next_id folder) j q hgetj
    have hidj : matchValidId q.2 = some (get_next_id folder + j) := by
      rw [hstepj]
      exact matchValidId_newFilename today hd _ _
    rw [← hnq] at hidj
    rw [← heq] at hid
    rw [hidj] at hid
    have : get_next_id folder + j = get_next_id folder + k := by
      simpa using hid
    omega

/-- Witness for claim C9: before the only rename of the sample folder,
the pre-existing conforming name differs from the computed destination. -/
theorem claimC9_witness :
    isDateFormat sampleToday = true
    ∧ sampleFolder.present = true
    ∧ sampleConforming ∈ applyMoves sampleFolder.files
        ((process_folder sampleToday samplePath sampleFolder).renames.take 0)
    ∧ sampleConforming ≠ ((process_folder sampleToday samplePath sampleFolder).renames.get
        ⟨0, by decide⟩).2 := by
  refine ⟨by decide, rfl, by decide, ?_⟩
  exact (claimC9_no_overwrite sampleToday samplePath sampleFolder (by decide) rfl 0
      (by decide)).2 sampleConforming (by decide)

/-- Counterexample to claim C6: main iterates the configured folders with
no exception handling, so when processing the first folder fails, the
loop never reaches the second configured folder (templates is not among
the folders the body was invoked on). -/
theorem claimC6_counterexample :
    ¬ (['t', 'e', 'm', 'p', 'l', 'a', 't', 'e', 's'] ∈
        mainFoldersRun
          (fun f => if f = ['p', 'r', 'o', 'j', 'e', 'c', 't', 's']
            then Except.error () else Except.ok ())
          TARGET_FOLDERS) := by decide

/-- Claim C6 amended: an uncaught failure while processing one folder
aborts the whole run, so the folders after the failing one are not
processed; only when every folder completes without failure does the
orchestrator apply the normalizer to every configured folder, in order. -/
theorem claimC6_amended (run : Name → Except Unit Unit) :
    (∀ folders : List Name, (∀ f ∈ folders, run f = Except.ok ()) →
        mainFoldersRun run folders = folders)
    ∧ (∀ (pre : List Name) (f : Name) (post : List Name) (e : Unit),
        (∀ g ∈ pre, run g = Except.ok ()) → run f = Except.error e →
        mainFoldersRun run (pre ++ f :: post) = pre ++ [f]) := by
  constructor
  · intro folders
    induction folders with
    | nil => intro _; rfl
    | cons f fs ih =>
      intro hall
      have hrf := hall f (List.mem_cons_self f fs)
      simp only [mainFoldersRun, hrf]
      rw [ih (fun g hg => hall g (List.mem_cons_of_mem f hg))]
  · intro pre
    induction pre with
    | nil =>
      intro f post e _ hf
      simp only [List.nil_append, mainFoldersRun, hf]
    | cons g gs ih =>
      intro f post e hpre hf
      have hrg := hpre g (List.mem_cons_self g gs)
      simp only [List.cons_append, mainFoldersRun, hrg]
      have := ih f post e (fun x hx => hpre x (List.mem_cons_of_mem g hx)) hf
      rw [show gs.append (f :: post) = gs ++ f :: post from rfl, this]

/-- Witness for claim C6 amended: with a body that succeeds on every
folder, the loop of main reaches both configured folders. -/
theorem claimC6_witness :
    mainFoldersRun (fun _ => Except.ok ()) TARGET_FOLDERS = TARGET_FOLDERS :=
  (claimC6_amended (fun _ => Except.ok ())).1 TARGET_FOLDERS (fun _ _ => rfl)
